import Mathlib

/-
  Verification development for the CloudTrail analysis program
  (src/analyze.py).  The Python functions are shallowly embedded as Lean
  functions: timestamps are Int (seconds since epoch), the reserved
  sentinel UNKNOWN = -1 marks a lifecycle timestamp not yet observed,
  SQLite rows become Lean structures, and the resources table becomes a
  key-indexed store.
-/

namespace CloudTrail

/-- The reserved sentinel for an unobserved lifecycle timestamp
(UNKNOWN = -1 in analyze.py). -/
def UNKNOWN : Int := -1

/-- One canonical access event, as yielded by records() in analyze.py:
resource identifier (arn), issuing principal (iam), action name,
read-only flag (ro) and occurrence time in epoch seconds (ts). -/
structure AccessEvent where
  arn : String
  iam : String
  name : String
  ro : Bool
  ts : Int
deriving DecidableEq

/-- One row of the resources table: identifier (arn, primary key),
owning principal (iam), created / deleted lifecycle timestamps
(UNKNOWN when unobserved), and the earliest / latest observed times. -/
structure Resource where
  arn : String
  iam : String
  created : Int
  deleted : Int
  earliest : Int
  latest : Int
deriving DecidableEq

/-- One row of the accesses table, written by db_access_record(). -/
structure AccessRecord where
  arn : String
  name : String
  iam : String
  ts : Int
  read : Int
  write : Int
deriving DecidableEq

/-- Does the pattern occur at the head of the character list? -/
def matchAt : List Char → List Char → Bool
  | [], _ => true
  | _ :: _, [] => false
  | p :: ps, c :: cs => p = c && matchAt ps cs

/-- Does the pattern occur anywhere in the character list? -/
def hasSub (pat : List Char) : List Char → Bool
  | [] => matchAt pat []
  | c :: cs => matchAt pat (c :: cs) || hasSub pat cs

/-- Embedding of the Python membership test: "Delete" in name
(case-sensitive substring containment). -/
def containsDelete (name : String) : Bool :=
  hasSub "Delete".toList name.toList

/-- Embedding of db_resource_create(): the row inserted for the first
event seen for an identifier.  In the Python code created and deleted
start as UNKNOWN and exactly one of them is set to the event time when
the event is not read-only, depending on the Delete test on its name. -/
def db_resource_create (new : AccessEvent) : Resource :=
  { arn := new.arn
    iam := new.iam
    created :=
      if !new.ro then
        if containsDelete new.name then UNKNOWN else new.ts
      else UNKNOWN
    deleted :=
      if !new.ro then
        if containsDelete new.name then new.ts else UNKNOWN
      else UNKNOWN
    earliest := new.ts
    latest := new.ts }

/-- Embedding of db_resource_update(): the row replacing an existing row
for the same identifier.  The SQL update sets only created, deleted,
earliest and latest; arn and iam are kept from the old row. -/
def db_resource_update (old : Resource) (new : AccessEvent) : Resource :=
  { arn := old.arn
    iam := old.iam
    created :=
      if !new.ro then
        if containsDelete new.name then old.created
        else if old.created = UNKNOWN ∨ new.ts < old.created then new.ts else old.created
      else old.created
    deleted :=
      if !new.ro then
        if containsDelete new.name then
          if old.deleted = UNKNOWN ∨ new.ts > old.deleted then new.ts else old.deleted
        else old.deleted
      else old.deleted
    earliest := min old.earliest new.ts
    latest := max old.latest new.ts }

/-- The per-identifier transition performed by the ingest loop in load():
create the row when none exists, update it otherwise. -/
def step (o : Option Resource) (e : AccessEvent) : Option Resource :=
  match o with
  | none => some (db_resource_create e)
  | some old => some (db_resource_update old e)

/-- The resources table, indexed by identifier. -/
def Store : Type := String → Option Resource

/-- A fresh store with no rows. -/
def emptyStore : Store := fun _ => none

/-- One upsert of an event into the store, as performed per record by
load(): select the row with the event identifier, then update or create. -/
def upsert (s : Store) (e : AccessEvent) : Store :=
  fun a => if a = e.arn then step (s e.arn) e else s a

/-- Apply a whole event stream to a store, in order. -/
def applyAll (s : Store) (l : List AccessEvent) : Store :=
  l.foldl upsert s

/-- The lifecycle view of a possible row: identifier, created, deleted,
earliest and latest (the iam column is dropped). -/
def stateProj (o : Option Resource) : Option (String × Int × Int × Int × Int) :=
  o.map fun r => (r.arn, r.created, r.deleted, r.earliest, r.latest)

/-- Embedding of db_access_record(): the ledger row written for one
event, with read = 1 and write = 0 for a read-only event and read = 0 and
write = 1 otherwise. -/
def db_access_record (new : AccessEvent) : AccessRecord :=
  { arn := new.arn
    name := new.name
    iam := new.iam
    ts := new.ts
    read := if new.ro then 1 else 0
    write := if new.ro then 0 else 1 }

/-- The insert into the accesses table: the Recorder appends one row per
event and never deduplicates. -/
def accesses_insert (tbl : List AccessRecord) (new : AccessEvent) : List AccessRecord :=
  tbl ++ [db_access_record new]

/-- Stable insertion by ascending earliest, modelling the order-by clause
of exist_between(). -/
def insertByEarliest (r : Resource) : List Resource → List Resource
  | [] => [r]
  | x :: xs => if r.earliest ≤ x.earliest then r :: x :: xs else x :: insertByEarliest r xs

/-- Sort resource rows by ascending earliest. -/
def sortByEarliest : List Resource → List Resource
  | [] => []
  | x :: xs => insertByEarliest x (sortByEarliest xs)

/-- Embedding of the exist_between() query: select the rows of the
resources table with lbound <= latest and ubound >= earliest, ordered by
earliest. -/
def exist_between (rows : List Resource) (lbound ubound : Int) : List Resource :=
  sortByEarliest
    (rows.filter (fun r => decide (lbound ≤ r.latest) && decide (ubound ≥ r.earliest)))

/-- Embedding of the reads_writes() query: over the accesses rows with
matching principal (when one is given) and lbound <= ts < ubound, the
read and write sums grouped by identifier. -/
def reads_writes (ledger : List AccessRecord) (lbound ubound : Int)
    (iam : Option String) : List (String × Int × Int) :=
  let hits := ledger.filter fun rec =>
    (match iam with
     | some i => rec.iam == i
     | none => true)
    && decide (rec.ts ≥ lbound) && decide (rec.ts < ubound)
  ((hits.map fun rec => rec.arn).dedup).map fun a =>
    (a,
      ((hits.filter fun rec => rec.arn == a).map fun rec => rec.read).sum,
      ((hits.filter fun rec => rec.arn == a).map fun rec => rec.write).sum)

/-- The minimum aggregation window in minutes (min_aggregation in main()). -/
def min_aggregation : Int := 5

/-- Embedding of the reads-writes branch of main(): windows narrower than
min_aggregation minutes are refused with exit status 1 before the
database is touched; otherwise the query runs. -/
def reads_writes_cmd (ledger : List AccessRecord) (lbound ubound : Int)
    (iam : Option String) : Except Nat (List (String × Int × Int)) :=
  if ubound - lbound < min_aggregation * 60 then Except.error 1
  else Except.ok (reads_writes ledger lbound ubound iam)

/-- The two tables owned by the program, as a database value. -/
structure DBState where
  resources : List Resource
  accesses : List AccessRecord
deriving DecidableEq

/-- A database with both tables empty. -/
def emptyDB : DBState := ⟨[], []⟩

/-- The resources-table side of one ingest-loop iteration: select the row
with the event identifier, then update it in place or insert a new row. -/
def resources_upsert (rows : List Resource) (e : AccessEvent) : List Resource :=
  match rows.find? (fun r => r.arn == e.arn) with
  | some old => rows.map fun r => if r.arn == e.arn then db_resource_update old e else r
  | none => rows ++ [db_resource_create e]

/-- One full iteration of the ingest loop in load(): upsert the resource
row and append the access row. -/
def db_process_event (db : DBState) (e : AccessEvent) : DBState :=
  { resources := resources_upsert db.resources e
    accesses := accesses_insert db.accesses e }

/-- An open sqlite connection: the durable contents at the last commit,
and the working contents including uncommitted statements. -/
structure Conn where
  committed : DBState
  pending : DBState

/-- The primitive effects load() performs against storage. -/
inductive LoadStep where
  | unlink
  | connect
  | commit
  | proc (e : AccessEvent)
  | close

/-- Storage as load() sees it: the database file on disk (none when
absent) and the connection (none when closed). -/
structure World where
  file : Option DBState
  conn : Option Conn

/-- Effect of one primitive: unlink removes the file; connect opens (and
creates, when absent) the file; commit makes the pending contents
durable; proc buffers one ingest iteration in the open transaction;
close drops the connection and any uncommitted work. -/
def runStep (w : World) : LoadStep → World
  | .unlink => { file := none, conn := w.conn }
  | .connect =>
    { file := some (w.file.getD emptyDB)
      conn := some ⟨w.file.getD emptyDB, w.file.getD emptyDB⟩ }
  | .commit =>
    match w.conn with
    | some c => { file := some c.pending, conn := some ⟨c.pending, c.pending⟩ }
    | none => w
  | .proc e =>
    match w.conn with
    | some c => { file := w.file, conn := some ⟨c.committed, db_process_event c.pending e⟩ }
    | none => w
  | .close => { file := w.file, conn := none }

/-- Run a sequence of primitives. -/
def runSteps (w : World) (l : List LoadStep) : World := l.foldl runStep w

/-- The storage effects of load(fndb, fnjson), in order: remove any
existing database file, connect (creating a fresh file), create the two
tables and commit them (db_tables_create commits; the two per-table
commits are collapsed into one since table schemas carry no rows), then
one buffered ingest iteration per extracted event, one commit after the
whole loop, and close. -/
def load_steps (evs : List AccessEvent) : List LoadStep :=
  [.unlink, .connect, .commit] ++ evs.map LoadStep.proc ++ [.commit, .close]

/-- The storage state after a completed run of load() against a
pre-existing database file. -/
def load_run (pre : Option DBState) (evs : List AccessEvent) : World :=
  runSteps ⟨pre, none⟩ (load_steps evs)

/-- The storage state when load() aborts after its first k primitive
effects: the steps up to k are performed and the uncommitted remainder is
lost. -/
def load_aborted (pre : Option DBState) (evs : List AccessEvent) (k : Nat) : World :=
  runSteps ⟨pre, none⟩ ((load_steps evs).take k)

/-- Embedding of record["eventSource"].split(".")[0] in records(): the
source service is everything before the first dot. -/
def service_of (src : String) : String :=
  String.mk (src.toList.takeWhile fun c => c ≠ '.')

/-- One entry of the "resources" list of a raw CloudTrail record. -/
structure RawResource where
  ARN : String
  accountId : String
deriving DecidableEq

/-- A raw CloudTrail record, after the boundary conversions the core does
not own (ISO-8601 parsing has already produced epoch seconds); resources
is none when the record carries no "resources" key. -/
structure RawRecord where
  eventType : String
  eventName : String
  eventTs : Int
  readOnly : Bool
  eventSource : String
  awsRegion : String
  errorCode : Option String
  userIdentityArn : String
  resources : Option (List RawResource)
deriving DecidableEq

/-- The identifier records() synthesizes for a wildcard resource:
arn:aws:{service}:{region}:{account}:{action-name} with braces filled in
from the raw record. -/
def synth_arn (rec : RawRecord) (res : RawResource) : String :=
  "arn:aws:" ++ service_of rec.eventSource ++ ":" ++ rec.awsRegion ++ ":"
    ++ res.accountId ++ ":" ++ rec.eventName

/-- The AccessEvent records() yields for one resource of a raw record. -/
def mk_event (rec : RawRecord) (res : RawResource) : AccessEvent :=
  { arn := if res.ARN = "*" then synth_arn rec res else res.ARN
    iam := rec.userIdentityArn
    name := rec.eventName
    ro := rec.readOnly
    ts := rec.eventTs }

/-- The filtering of records(): drop non-API-call records, records with
no resources key, and records with a non-empty error code; emit one event
per resource otherwise. -/
def extract_events (rec : RawRecord) : List AccessEvent :=
  if rec.eventType ≠ "AwsApiCall" then []
  else
    match rec.resources with
    | none => []
    | some rs =>
      match rec.errorCode with
      | some s => if s ≠ "" then [] else rs.map (mk_event rec)
      | none => rs.map (mk_event rec)

lemma step_congr {o₁ o₂ : Option Resource} (h : stateProj o₁ = stateProj o₂)
    (e : AccessEvent) : stateProj (step o₁ e) = stateProj (step o₂ e) := by
  cases o₁ with
  | none =>
    cases o₂ with
    | none => rfl
    | some r => simp [stateProj] at h
  | some r₁ =>
    cases o₂ with
    | none => simp [stateProj] at h
    | some r₂ =>
      simp only [stateProj, Option.map_some', Option.some.injEq, Prod.mk.injEq] at h
      obtain ⟨h1, h2, h3, h4, h5⟩ := h
      simp [step, db_resource_update, stateProj, h1, h2, h3, h4, h5]

lemma foldl_proj_congr {o₁ o₂ : Option Resource} (h : stateProj o₁ = stateProj o₂) :
    ∀ m : List AccessEvent, stateProj (m.foldl step o₁) = stateProj (m.foldl step o₂)
  | [] => h
  | e :: m => foldl_proj_congr (step_congr h e) m

set_option maxHeartbeats 1600000 in
lemma step_swap (o : Option Resource) (e₁ e₂ : AccessEvent)
    (ha : e₁.arn = e₂.arn) (h₁ : e₁.ts ≠ UNKNOWN) (h₂ : e₂.ts ≠ UNKNOWN) :
    stateProj (step (step o e₁) e₂) = stateProj (step (step o e₂) e₁) := by
  simp only [UNKNOWN] at h₁ h₂
  cases o with
  | none =>
    cases hr₁ : e₁.ro <;> cases hr₂ : e₂.ro <;>
      cases hd₁ : containsDelete e₁.name <;> cases hd₂ : containsDelete e₂.name <;>
      simp only [step, db_resource_create, db_resource_update, stateProj, UNKNOWN,
        hr₁, hr₂, hd₁, hd₂, ha, Bool.not_true, Bool.not_false, if_true, if_false,
        Bool.false_eq_true, Bool.true_eq_false, ite_true, ite_false,
        Option.map_some', Option.some.injEq, Prod.mk.injEq,
        eq_self_iff_true, true_and, and_true, true_or, or_true] <;>
      (try split_ifs) <;> omega
  | some r =>
    cases hr₁ : e₁.ro <;> cases hr₂ : e₂.ro <;>
      cases hd₁ : containsDelete e₁.name <;> cases hd₂ : containsDelete e₂.name <;>
      simp only [step, db_resource_update, stateProj, UNKNOWN,
        hr₁, hr₂, hd₁, hd₂, Bool.not_true, Bool.not_false, if_true, if_false,
        Bool.false_eq_true, Bool.true_eq_false, ite_true, ite_false,
        Option.map_some', Option.some.injEq, Prod.mk.injEq,
        eq_self_iff_true, true_and, and_true, true_or, or_true] <;>
      (try split_ifs) <;> omega

lemma perm_foldl_proj {a : String} {m₁ m₂ : List AccessEvent} (p : m₁.Perm m₂)
    (hv : ∀ e ∈ m₁, e.ts ≠ UNKNOWN ∧ e.arn = a) :
    ∀ o : Option Resource, stateProj (m₁.foldl step o) = stateProj (m₂.foldl step o) := by
  induction p with
  | nil => intro o; rfl
  | cons x _ ih =>
    intro o
    exact ih (fun e he => hv e (List.mem_cons_of_mem x he)) (step o x)
  | swap x y m =>
    intro o
    have hy := hv y (by simp)
    have hx := hv x (by simp)
    simp only [List.foldl]
    exact foldl_proj_congr
      (step_swap o y x (hy.2.trans hx.2.symm) hy.1 hx.1) m
  | trans p₁ p₂ ih₁ ih₂ =>
    intro o
    exact (ih₁ hv o).trans (ih₂ (fun e he => hv e (p₁.mem_iff.mpr he)) o)

lemma applyAll_at (s : Store) (l : List AccessEvent) (a : String) :
    applyAll s l a = (l.filter (fun e => e.arn == a)).foldl step (s a) := by
  induction l generalizing s with
  | nil => rfl
  | cons e l ih =>
    show applyAll (upsert s e) l a = _
    rw [ih (upsert s e)]
    by_cases h : e.arn = a
    · have hstep : upsert s e a = step (s a) e := by
        show (if a = e.arn then step (s e.arn) e else s a) = step (s a) e
        rw [if_pos h.symm, h]
      have hfil : List.filter (fun x => x.arn == a) (e :: l)
          = e :: List.filter (fun x => x.arn == a) l := by
        simp [List.filter_cons, h]
      rw [hstep, hfil]
      rfl
    · have hstep : upsert s e a = s a := by
        show (if a = e.arn then step (s e.arn) e else s a) = s a
        rw [if_neg (fun hc => h hc.symm)]
      have hfil : List.filter (fun x => x.arn == a) (e :: l)
          = List.filter (fun x => x.arn == a) l := by
        simp [List.filter_cons, h]
      rw [hstep, hfil]

lemma step_idem (o : Option Resource) (e : AccessEvent) : step (step o e) e = step o e := by
  cases o with
  | none =>
    show some (db_resource_update (db_resource_create e) e) = some (db_resource_create e)
    cases hr : e.ro <;> cases hd : containsDelete e.name <;>
      simp [db_resource_update, db_resource_create, hr, hd, Resource.mk.injEq] <;>
      split_ifs <;> omega
  | some r =>
    show some (db_resource_update (db_resource_update r e) e) = some (db_resource_update r e)
    cases hr : e.ro <;> cases hd : containsDelete e.name <;>
      simp [db_resource_update, hr, hd, Resource.mk.injEq] <;>
      split_ifs <;> omega

/-- C1 counterexample: order-independence of the full Resource rows fails,
because the update statement never touches the iam column, so the stored
principal is the principal of whichever event for the identifier happens
first.  Two permutations of the same two-event set yield rows that differ
in the principal. -/
theorem c1_full_row_order_dependent :
    (([⟨"X", "A", "CreateX", false, 100⟩, ⟨"X", "B", "CreateX", false, 100⟩] :
        List AccessEvent).Perm
      [⟨"X", "B", "CreateX", false, 100⟩, ⟨"X", "A", "CreateX", false, 100⟩])
    ∧ applyAll emptyStore
        [⟨"X", "A", "CreateX", false, 100⟩, ⟨"X", "B", "CreateX", false, 100⟩] "X"
      ≠ applyAll emptyStore
        [⟨"X", "B", "CreateX", false, 100⟩, ⟨"X", "A", "CreateX", false, 100⟩] "X"
    ∧ (applyAll emptyStore
        [⟨"X", "A", "CreateX", false, 100⟩, ⟨"X", "B", "CreateX", false, 100⟩] "X").map
        Resource.iam = some "A"
    ∧ (applyAll emptyStore
        [⟨"X", "B", "CreateX", false, 100⟩, ⟨"X", "A", "CreateX", false, 100⟩] "X").map
        Resource.iam = some "B" := by
  decide

/-- C1 (amended): for every finite set of AccessEvents whose timestamps are
valid (distinct from the UNKNOWN sentinel), feeding any permutation of the
set through upsert into a fresh store yields, for every identifier, the
same resulting row up to the lifecycle view: same identifier, created,
deleted, earliest and latest.  The principal column is excluded: it is
taken from the first event applied for the identifier. -/
theorem c1_reconciler_order_independent (l₁ l₂ : List AccessEvent) (hp : l₁.Perm l₂)
    (hv : ∀ e ∈ l₁, e.ts ≠ UNKNOWN) (a : String) :
    stateProj (applyAll emptyStore l₁ a) = stateProj (applyAll emptyStore l₂ a) := by
  rw [applyAll_at, applyAll_at]
  refine perm_foldl_proj (a := a) (hp.filter _) ?_ _
  intro e he
  rw [List.mem_filter] at he
  refine ⟨hv e he.1, ?_⟩
  simpa using he.2

/-- C1 witness: the amended theorem applied to a concrete two-event set
for identifier X, in its two orders. -/
theorem c1_reconciler_order_independent_witness :
    stateProj (applyAll emptyStore
      [⟨"X", "A", "CreateX", false, 100⟩, ⟨"X", "B", "DeleteX", false, 200⟩] "X")
    = stateProj (applyAll emptyStore
      [⟨"X", "B", "DeleteX", false, 200⟩, ⟨"X", "A", "CreateX", false, 100⟩] "X") :=
  c1_reconciler_order_independent _ _ (by decide) (by decide) "X"

/-- C2: the Reconciler transition is idempotent: applying the same
AccessEvent a second time through upsert leaves the whole store, and in
particular the created, deleted, earliest and latest fields of every row,
exactly as after the first application. -/
theorem c2_reconciler_idempotent (s : Store) (e : AccessEvent) :
    upsert (upsert s e) e = upsert s e := by
  funext a
  by_cases h : a = e.arn
  · subst h
    simp [upsert, step_idem]
  · simp [upsert, h]

/-- C3: postcondition of one upsert.  With no existing row the created row
has earliest = latest = event time, and created / deleted are seeded from
the event time exactly as the read-only flag and the deletion test on the
action name dictate; with an existing row, earliest and latest extend by
min and max, deleted moves to the event time only for a non-read-only
deletion-named event when deleted is unknown or the event is later, created
moves to the event time only for a non-read-only non-deletion event when
created is unknown or the event is earlier, and read-only events change
neither created nor deleted. -/
theorem c3_upsert_postcondition (e : AccessEvent) (r : Resource) :
    step none e = some
      { arn := e.arn
        iam := e.iam
        created :=
          if e.ro = false ∧ containsDelete e.name = false then e.ts else UNKNOWN
        deleted :=
          if e.ro = false ∧ containsDelete e.name = true then e.ts else UNKNOWN
        earliest := e.ts
        latest := e.ts }
    ∧ step (some r) e = some
      { arn := r.arn
        iam := r.iam
        created :=
          if e.ro = false ∧ containsDelete e.name = false
              ∧ (r.created = UNKNOWN ∨ e.ts < r.created) then
            e.ts
          else r.created
        deleted :=
          if e.ro = false ∧ containsDelete e.name = true
              ∧ (r.deleted = UNKNOWN ∨ e.ts > r.deleted) then
            e.ts
          else r.deleted
        earliest := min r.earliest e.ts
        latest := max r.latest e.ts } := by
  constructor <;>
    cases hr : e.ro <;> cases hd : containsDelete e.name <;>
      simp [step, db_resource_create, db_resource_update, hr, hd, Resource.mk.injEq]

/-- The invariant of C4 on one possible row. -/
def rowInv (o : Option Resource) : Prop :=
  ∀ r, o = some r → r.earliest ≤ r.latest ∧ r.earliest ≠ UNKNOWN ∧ r.latest ≠ UNKNOWN

lemma step_rowInv {o : Option Resource} (ho : rowInv o) {e : AccessEvent}
    (he : e.ts ≠ UNKNOWN) : rowInv (step o e) := by
  intro r hr
  cases o with
  | none =>
    cases hr
    simp only [db_resource_create, UNKNOWN] at *
    omega
  | some old =>
    cases hr
    obtain ⟨h1, h2, h3⟩ := ho old rfl
    simp only [db_resource_update, UNKNOWN] at *
    omega

lemma applyAll_rowInv {l : List AccessEvent} (hv : ∀ e ∈ l, e.ts ≠ UNKNOWN)
    {s : Store} (hs : ∀ a, rowInv (s a)) : ∀ a, rowInv (applyAll s l a) := by
  induction l generalizing s with
  | nil => exact hs
  | cons e l ih =>
    refine ih (fun x hx => hv x (List.mem_cons_of_mem e hx)) (fun a => ?_)
    show rowInv (if a = e.arn then step (s e.arn) e else s a)
    by_cases h : a = e.arn
    · rw [if_pos h]
      exact step_rowInv (hs e.arn) (hv e (List.mem_cons_self e l))
    · rw [if_neg h]
      exact hs a

/-- C4: every resource row reachable from the empty store by a sequence
of upserts of events with valid (non-sentinel) timestamps satisfies
earliest <= latest, and both earliest and latest are known, never the
UNKNOWN sentinel. -/
theorem c4_interval_invariant (l : List AccessEvent) (hv : ∀ e ∈ l, e.ts ≠ UNKNOWN)
    (a : String) (r : Resource) (h : applyAll emptyStore l a = some r) :
    r.earliest ≤ r.latest ∧ r.earliest ≠ UNKNOWN ∧ r.latest ≠ UNKNOWN :=
  applyAll_rowInv hv (fun _ _ hr => by cases hr) a r h

/-- C4 witness: the invariant holds for the row created by one concrete
non-read-only event. -/
theorem c4_interval_invariant_witness :
    (⟨"X", "A", 100, -1, 100, 100⟩ : Resource).earliest
        ≤ (⟨"X", "A", 100, -1, 100, 100⟩ : Resource).latest
      ∧ (⟨"X", "A", 100, -1, 100, 100⟩ : Resource).earliest ≠ UNKNOWN
      ∧ (⟨"X", "A", 100, -1, 100, 100⟩ : Resource).latest ≠ UNKNOWN :=
  c4_interval_invariant [⟨"X", "A", "CreateX", false, 100⟩] (by decide) "X"
    ⟨"X", "A", 100, -1, 100, 100⟩ (by decide)

lemma insertByEarliest_perm (r : Resource) (l : List Resource) :
    (insertByEarliest r l).Perm (r :: l) := by
  induction l with
  | nil => exact List.Perm.refl _
  | cons x xs ih =>
    show (if r.earliest ≤ x.earliest then r :: x :: xs else x :: insertByEarliest r xs).Perm _
    split_ifs
    · exact List.Perm.refl _
    · exact (ih.cons x).trans (List.Perm.swap r x xs)

lemma sortByEarliest_perm (l : List Resource) : (sortByEarliest l).Perm l := by
  induction l with
  | nil => exact List.Perm.refl _
  | cons x xs ih =>
    exact (insertByEarliest_perm x (sortByEarliest xs)).trans (ih.cons x)

/-- C5: exist_between returns a resource row exactly when the row is in
the store and its observed interval meets the query interval inclusively:
earliest <= upper bound and latest >= lower bound. -/
theorem c5_exist_between_correct (rows : List Resource) (lb ub : Int) (r : Resource) :
    r ∈ exist_between rows lb ub ↔ r ∈ rows ∧ r.earliest ≤ ub ∧ lb ≤ r.latest := by
  unfold exist_between
  rw [(sortByEarliest_perm _).mem_iff, List.mem_filter]
  simp only [Bool.and_eq_true, decide_eq_true_eq, ge_iff_le]
  constructor
  · rintro ⟨hm, h1, h2⟩
    exact ⟨hm, h2, h1⟩
  · rintro ⟨hm, h1, h2⟩
    exact ⟨hm, h2, h1⟩

lemma runSteps_proc (m : List AccessEvent) (f : Option DBState) (c : Conn) :
    runSteps ⟨f, some c⟩ (m.map LoadStep.proc)
      = ⟨f, some ⟨c.committed, m.foldl db_process_event c.pending⟩⟩ := by
  induction m generalizing c with
  | nil => rfl
  | cons e m ih =>
    show runSteps (runStep ⟨f, some c⟩ (LoadStep.proc e)) (m.map LoadStep.proc) = _
    exact ih ⟨c.committed, db_process_event c.pending e⟩

lemma runSteps_append (w : World) (l₁ l₂ : List LoadStep) :
    runSteps w (l₁ ++ l₂) = runSteps (runSteps w l₁) l₂ :=
  List.foldl_append ..

lemma take_load_steps (evs : List AccessEvent) (j : Nat) (hj : j ≤ evs.length) :
    (load_steps evs).take (3 + j)
      = [LoadStep.unlink, LoadStep.connect, LoadStep.commit]
        ++ (evs.take j).map LoadStep.proc := by
  unfold load_steps
  rw [List.append_assoc, List.take_append_eq_append_take]
  have hlen : ([LoadStep.unlink, LoadStep.connect, LoadStep.commit] : List LoadStep).length
      = 3 := rfl
  rw [hlen, List.take_of_length_le (l := [LoadStep.unlink, LoadStep.connect, LoadStep.commit])
    (by rw [hlen]; omega)]
  have h3 : 3 + j - 3 = j := by omega
  rw [h3, List.take_append_eq_append_take]
  have hlen2 : (evs.map LoadStep.proc).length = evs.length := by
    rw [List.length_map]
  rw [hlen2]
  have hz : j - evs.length = 0 := by omega
  rw [hz, List.take_zero, List.append_nil, List.map_take]

/-- C6 counterexample: load() first removes the pre-existing database
file, so the persisted store after a mid-stream failure is a fresh empty
database and not the pre-ingest store: aborting at the third primitive
(after the schema commit, before any event) loses the pre-existing row. -/
theorem c6_abort_not_pre_ingest :
    (load_aborted (some ⟨[⟨"X", "A", 100, -1, 100, 100⟩], []⟩)
        [⟨"Y", "B", "CreateY", false, 5⟩] 3).file
      = some emptyDB
    ∧ (load_aborted (some ⟨[⟨"X", "A", 100, -1, 100, 100⟩], []⟩)
        [⟨"Y", "B", "CreateY", false, 5⟩] 3).file
      ≠ some ⟨[⟨"X", "A", 100, -1, 100, 100⟩], []⟩ := by
  decide

/-- C6 (amended): the ingest run commits the event data atomically at
completion only, so a failure anywhere in the ingest loop (after the
schema commit and before the final commit) leaves a persisted store with
no resource rows and no access rows; but the persisted store is not the
pre-ingest store: load() deletes any existing database first, so an
aborted run leaves a committed empty store whatever was there before,
while a completed run persists exactly the full reconciliation of the
stream. -/
theorem c6_all_or_nothing (pre : Option DBState) (evs : List AccessEvent) (k : Nat)
    (h1 : 3 ≤ k) (h2 : k ≤ 3 + evs.length) :
    (load_aborted pre evs k).file = some emptyDB
    ∧ (load_run pre evs).file = some (evs.foldl db_process_event emptyDB) := by
  have hpre3 : runSteps ⟨pre, none⟩ [LoadStep.unlink, LoadStep.connect, LoadStep.commit]
      = ⟨some emptyDB, some ⟨emptyDB, emptyDB⟩⟩ := rfl
  constructor
  · unfold load_aborted
    obtain ⟨j, rfl⟩ : ∃ j, k = 3 + j := ⟨k - 3, by omega⟩
    have hj : j ≤ evs.length := by omega
    rw [take_load_steps evs j hj, runSteps_append, hpre3, runSteps_proc]
  · unfold load_run load_steps
    rw [List.append_assoc, runSteps_append, hpre3, runSteps_append, runSteps_proc]
    rfl

/-- C6 witness: the amended theorem at a concrete pre-existing store, a
one-event stream and an abort right after the third primitive. -/
theorem c6_all_or_nothing_witness :
    (load_aborted (some ⟨[⟨"X", "A", 100, -1, 100, 100⟩], []⟩)
        [⟨"Y", "B", "CreateY", false, 5⟩] 3).file = some emptyDB
    ∧ (load_run (some ⟨[⟨"X", "A", 100, -1, 100, 100⟩], []⟩)
        [⟨"Y", "B", "CreateY", false, 5⟩]).file
      = some ([(⟨"Y", "B", "CreateY", false, 5⟩ : AccessEvent)].foldl
          db_process_event emptyDB) :=
  c6_all_or_nothing (some ⟨[⟨"X", "A", 100, -1, 100, 100⟩], []⟩)
    [⟨"Y", "B", "CreateY", false, 5⟩] 3 (by decide) (by decide)

/-- C7: a reads-writes window narrower than 5 minutes (300 seconds) is
refused with exit status 1 whatever the stored ledger holds (no results,
no dependence on storage), and a window of 5 minutes or more runs the
aggregation query. -/
theorem c7_min_window (lb ub : Int) (iam : Option String) :
    (ub - lb < min_aggregation * 60 →
      ∀ ledger, reads_writes_cmd ledger lb ub iam = Except.error 1)
    ∧ (min_aggregation * 60 ≤ ub - lb →
      ∀ ledger, reads_writes_cmd ledger lb ub iam
        = Except.ok (reads_writes ledger lb ub iam)) := by
  constructor
  · intro h ledger
    unfold reads_writes_cmd
    rw [if_pos h]
  · intro h ledger
    unfold reads_writes_cmd
    rw [if_neg (by omega)]

/-- C7 witness: a 4-minute window is refused independently of the ledger
and a 5-minute window runs. -/
theorem c7_min_window_witness :
    reads_writes_cmd [] 0 240 none = Except.error 1
    ∧ reads_writes_cmd [] 0 300 none = Except.ok (reads_writes [] 0 300 none) :=
  ⟨(c7_min_window 0 240 none).1 (by decide) [],
   (c7_min_window 0 300 none).2 (by decide) []⟩

/-- C8: appending an event writes exactly one ledger row, whose read and
write flags are 1/0 for a read-only event and 0/1 otherwise (mutually
exclusive), and appending the same event twice yields two rows for it:
the Recorder never deduplicates. -/
theorem c8_recorder_ledger (e : AccessEvent) (tbl : List AccessRecord) :
    (accesses_insert tbl e).length = tbl.length + 1
    ∧ ((db_access_record e).read = 1 ∧ (db_access_record e).write = 0 ↔ e.ro = true)
    ∧ ((db_access_record e).read = 0 ∧ (db_access_record e).write = 1 ↔ e.ro = false)
    ∧ (accesses_insert (accesses_insert tbl e) e).length = tbl.length + 2
    ∧ (accesses_insert (accesses_insert tbl e) e).count (db_access_record e)
      = tbl.count (db_access_record e) + 2 := by
  cases he : e.ro <;>
    simp [accesses_insert, db_access_record, he, List.count_append] <;>
    omega

/-- C9: for a raw resource whose identifier is the wildcard value, the
extracted event carries an identifier synthesized from the source
service (the event source up to its first dot), the region, the resource
account and the action name. -/
theorem c9_wildcard_synthesis (rec : RawRecord) (res : RawResource)
    (h : res.ARN = "*") :
    (mk_event rec res).arn
      = "arn:aws:" ++ service_of rec.eventSource ++ ":" ++ rec.awsRegion ++ ":"
        ++ res.accountId ++ ":" ++ rec.eventName := by
  simp [mk_event, synth_arn, h]

/-- C9 witness: source s3.amazonaws.com, region us-east-1, account 123
and action CreateBucket synthesize arn:aws:s3:us-east-1:123:CreateBucket. -/
theorem c9_wildcard_synthesis_witness :
    (mk_event
      { eventType := "AwsApiCall"
        eventName := "CreateBucket"
        eventTs := 0
        readOnly := false
        eventSource := "s3.amazonaws.com"
        awsRegion := "us-east-1"
        errorCode := none
        userIdentityArn := "arn:aws:iam::123:root"
        resources := some [{ ARN := "*", accountId := "123" }] }
      { ARN := "*", accountId := "123" }).arn
    = "arn:aws:s3:us-east-1:123:CreateBucket" := by
  rw [c9_wildcard_synthesis _ _ rfl]
  rfl

lemma matchAt_iff (pat : List Char) : ∀ l : List Char,
    (matchAt pat l = true ↔ ∃ l₂, l = pat ++ l₂) := by
  induction pat with
  | nil =>
    intro l
    simp [matchAt]
  | cons p ps ih =>
    intro l
    cases l with
    | nil => simp [matchAt]
    | cons c cs =>
      simp only [matchAt, Bool.and_eq_true, decide_eq_true_eq, ih cs,
        List.cons_append, List.cons.injEq]
      constructor
      · rintro ⟨rfl, l₂, rfl⟩
        exact ⟨l₂, rfl, rfl⟩
      · rintro ⟨l₂, rfl, rfl⟩
        exact ⟨rfl, l₂, rfl⟩

lemma hasSub_iff (pat : List Char) : ∀ l : List Char,
    (hasSub pat l = true ↔ ∃ l₁ l₂, l = l₁ ++ pat ++ l₂) := by
  intro l
  induction l with
  | nil =>
    show matchAt pat [] = true ↔ _
    rw [matchAt_iff]
    constructor
    · rintro ⟨l₂, h⟩
      exact ⟨[], l₂, h⟩
    · rintro ⟨l₁, l₂, h⟩
      cases l₁ with
      | nil => exact ⟨l₂, h⟩
      | cons x xs => simp at h
  | cons c cs ih =>
    show (matchAt pat (c :: cs) || hasSub pat cs) = true ↔ _
    rw [Bool.or_eq_true, matchAt_iff, ih]
    constructor
    · rintro (⟨l₂, h⟩ | ⟨l₁, l₂, h⟩)
      · exact ⟨[], l₂, by simpa using h⟩
      · exact ⟨c :: l₁, l₂, by simp [h]⟩
    · rintro ⟨l₁, l₂, h⟩
      cases l₁ with
      | nil => exact Or.inl ⟨l₂, by simpa using h⟩
      | cons x xs =>
        simp only [List.cons_append, List.cons.injEq] at h
        exact Or.inr ⟨xs, l₂, h.2⟩

/-- C10: a non-read-only event is treated as deletion-named exactly when
the case-sensitive character sequence of "Delete" occurs contiguously
anywhere in its action name; RemoveBucket and delete are treated as
create-like, UpdateDeleteMarker as a deletion; and for a fresh row the
Reconciler seeds deleted (rather than created) exactly under that test. -/
theorem c10_delete_classification (name : String) (e : AccessEvent)
    (hro : e.ro = false) (hts : e.ts ≠ UNKNOWN) :
    (containsDelete name = true ↔ ∃ l₁ l₂, name.toList = l₁ ++ "Delete".toList ++ l₂)
    ∧ containsDelete "RemoveBucket" = false
    ∧ containsDelete "delete" = false
    ∧ containsDelete "UpdateDeleteMarker" = true
    ∧ ((db_resource_create e).deleted = e.ts ∧ (db_resource_create e).created = UNKNOWN
        ↔ containsDelete e.name = true) := by
  refine ⟨hasSub_iff _ _, by decide, by decide, by decide, ?_⟩
  simp only [UNKNOWN] at hts
  cases hd : containsDelete e.name <;>
    simp [db_resource_create, hro, hd, UNKNOWN] <;>
    omega

/-- C10 witness: the classification applied to a concrete deletion-named
event. -/
theorem c10_delete_classification_witness :
    (containsDelete "DeleteBucket" = true ↔
      ∃ l₁ l₂, "DeleteBucket".toList = l₁ ++ "Delete".toList ++ l₂)
    ∧ containsDelete "RemoveBucket" = false
    ∧ containsDelete "delete" = false
    ∧ containsDelete "UpdateDeleteMarker" = true
    ∧ ((db_resource_create ⟨"X", "A", "DeleteBucket", false, 50⟩).deleted
          = (⟨"X", "A", "DeleteBucket", false, 50⟩ : AccessEvent).ts
        ∧ (db_resource_create ⟨"X", "A", "DeleteBucket", false, 50⟩).created = UNKNOWN
        ↔ containsDelete "DeleteBucket" = true) :=
  c10_delete_classification "DeleteBucket" ⟨"X", "A", "DeleteBucket", false, 50⟩
    rfl (by decide)

end CloudTrail
